import Mathlib

/-!
Verification of the natural-language specification of the tailscale
repository slice against its source.  Go strings are modelled as lists of
natural numbers (byte values); runes (Unicode code points) are natural
numbers.  Fallible Go functions return `Option`/`Except`; the DERP relay
client, whose implementation is absent from the excerpt (only its tests are
present), is modelled from the specification text.
-/

namespace TSpec

/-- A Go string: a list of byte values. -/
abbrev GoStr := List Nat

/-- Bytes of an ASCII Lean string literal, used to transcribe the Go string
literals appearing in the source. -/
def gs (s : String) : GoStr := s.data.map Char.toNat

/-- UTF-8 continuation byte test (bit pattern 10xxxxxx). -/
def isCont (b : Nat) : Bool := 128 ≤ b && b < 192

/-- Go utf8.DecodeRuneInString: first rune of a byte string together with the
number of bytes consumed; invalid input yields (RuneError = U+FFFD, 1),
empty input yields (RuneError, 0). -/
def decodeRuneFront : GoStr → Nat × Nat
  | [] => (65533, 0)
  | b :: rest =>
    if b < 128 then (b, 1)
    else if b < 194 then (65533, 1)
    else if b < 224 then
      match rest with
      | b1 :: _ =>
        if isCont b1 then ((b - 192) * 64 + (b1 - 128), 2) else (65533, 1)
      | [] => (65533, 1)
    else if b < 240 then
      match rest with
      | b1 :: b2 :: _ =>
        if isCont b1 && isCont b2 then
          let r := (b - 224) * 4096 + (b1 - 128) * 64 + (b2 - 128)
          if 2048 ≤ r && (r < 55296 || 57343 < r) then (r, 3) else (65533, 1)
        else (65533, 1)
      | _ => (65533, 1)
    else if b < 245 then
      match rest with
      | b1 :: b2 :: b3 :: _ =>
        if isCont b1 && isCont b2 && isCont b3 then
          let r := (b - 240) * 262144 + (b1 - 128) * 4096 + (b2 - 128) * 64 + (b3 - 128)
          if 65536 ≤ r && r ≤ 1114111 then (r, 4) else (65533, 1)
        else (65533, 1)
      | _ => (65533, 1)
    else (65533, 1)

/-- Go utf8.DecodeLastRuneInString, on the reversed byte string: scans back
at most four bytes for a start byte and re-decodes forward. -/
def lastRuneOfRev : GoStr → Nat × Nat
  | [] => (65533, 0)
  | b0 :: rest =>
    if b0 < 128 then (b0, 1)
    else if !(isCont b0) then (65533, 1)
    else
      match rest with
      | [] => (65533, 1)
      | b1 :: rest1 =>
        if !(isCont b1) then
          (if (decodeRuneFront [b1, b0]).2 = 2 then decodeRuneFront [b1, b0] else (65533, 1))
        else
          match rest1 with
          | [] => (65533, 1)
          | b2 :: rest2 =>
            if !(isCont b2) then
              (if (decodeRuneFront [b2, b1, b0]).2 = 3 then decodeRuneFront [b2, b1, b0]
               else (65533, 1))
            else
              match rest2 with
              | [] => (65533, 1)
              | b3 :: _ =>
                if !(isCont b3) then
                  (if (decodeRuneFront [b3, b2, b1, b0]).2 = 4 then
                    decodeRuneFront [b3, b2, b1, b0]
                   else (65533, 1))
                else (65533, 1)

/-- Decoding of a whole byte string as UTF-8, rune by rune, following Go
package unicode/utf8: decodeRuneFront rejects continuation-byte starts,
overlong encodings, surrogates and values above U+10FFFF, reporting
(RuneError, 1); a one-byte RuneError marks invalid input, since a genuine
U+FFFD decodes with size 3.  The fuel argument only bounds the recursion:
every rune consumes at least one byte, so fuel equal to the byte length
(as supplied by utf8Decode) is never exhausted. -/
def utf8DecodeAux : Nat → GoStr → Option (List Nat)
  | _, [] => some []
  | 0, _ => none
  | fuel + 1, s =>
    let rn := decodeRuneFront s
    if rn.1 = 65533 && rn.2 = 1 then none
    else
      match utf8DecodeAux fuel (s.drop rn.2) with
      | none => none
      | some rs => some (rn.1 :: rs)

/-- The rune sequence of a byte string when it is valid UTF-8
(Go utf8.ValidString), none otherwise; `for range` over a valid Go string
yields this rune sequence. -/
def utf8Decode (s : GoStr) : Option (List Nat) := utf8DecodeAux s.length s

/-- Go unicode.IsSpace: the Unicode White_Space code points. -/
def isSpaceGo (r : Nat) : Bool :=
  (9 ≤ r && r ≤ 13) || r = 32 || r = 133 || r = 160 || r = 5760 ||
  (8192 ≤ r && r ≤ 8202) || r = 8232 || r = 8233 || r = 8239 || r = 8287 || r = 12288

/-- Left half of Go strings.TrimSpace: drop leading runes satisfying
unicode.IsSpace (an invalid sequence decodes to RuneError, which is not a
space, and stops the trimming, as in Go).  The fuel argument only bounds
the recursion: every step consumes at least one byte, so fuel equal to the
byte length (as supplied by trimLeftSpace) is never exhausted. -/
def trimLeftSpaceAux : Nat → GoStr → GoStr
  | _, [] => []
  | 0, s => s
  | fuel + 1, b :: rest =>
    -- the decoded size is at least 1 on nonempty input, so dropping
    -- (size - 1) from the tail equals dropping size from the whole string
    if isSpaceGo (decodeRuneFront (b :: rest)).1 then
      trimLeftSpaceAux fuel (rest.drop ((decodeRuneFront (b :: rest)).2 - 1))
    else b :: rest

/-- Drop the leading white space of a byte string. -/
def trimLeftSpace (s : GoStr) : GoStr := trimLeftSpaceAux s.length s

/-- Right half of Go strings.TrimSpace, operating on the reversed bytes:
drop trailing runes satisfying unicode.IsSpace.  Fuel as in
trimLeftSpaceAux. -/
def trimRightRevAux : Nat → GoStr → GoStr
  | _, [] => []
  | 0, s => s
  | fuel + 1, b :: rest =>
    if isSpaceGo (lastRuneOfRev (b :: rest)).1 then
      trimRightRevAux fuel (rest.drop ((lastRuneOfRev (b :: rest)).2 - 1))
    else b :: rest

/-- Drop the trailing white space of a reversed byte string. -/
def trimRightRev (s : GoStr) : GoStr := trimRightRevAux s.length s

/-- Go strings.TrimSpace: remove leading and trailing white space. -/
def trimSpace (s : GoStr) : GoStr :=
  (trimRightRev ((trimLeftSpace s).reverse)).reverse

/-- One step of splitting a byte string at '/' (byte 47): a slash opens a
new empty segment, any other byte is prepended to the current first
segment. -/
def splitStep (b : Nat) (acc : List GoStr) : List GoStr :=
  if b = 47 then [] :: acc
  else
    match acc with
    | [] => [[b]]
    | a :: as => (b :: a) :: as

/-- Split a byte string at every '/' (byte 47), keeping empty segments;
the path components seen by Go path.Clean. -/
def splitSlash (s : GoStr) : List GoStr :=
  s.foldr splitStep [[]]

/-- One step of the lexical cleaning loop of Go path.Clean, on a stack of
output components held most-recent-first: empty and "." components are
dropped, ".." pops a poppable component (or is kept, or dropped when the
path is rooted), anything else is pushed. -/
def cleanStep (rooted : Bool) (st : List GoStr) (c : GoStr) : List GoStr :=
  if c = [] || c = [46] then st
  else if c = [46, 46] then
    match st with
    | [] => if rooted then [] else [[46, 46]]
    | t :: rest => if t = [46, 46] then [46, 46] :: t :: rest else rest
  else c :: st

/-- The output component stack of Go path.Clean. -/
def cleanStack (rooted : Bool) (comps : List GoStr) : List GoStr :=
  comps.foldl (cleanStep rooted) []

/-- Go path.Clean (also filepath.Clean on Unix): shortest lexical path name
equivalent to the argument. -/
def cleanGo (p : GoStr) : GoStr :=
  if p = [] then [46]
  else
    let rooted := p.head? = some 47
    let body := List.intercalate [47] (cleanStack rooted (splitSlash p)).reverse
    if rooted then 47 :: body
    else if body = [] then [46] else body

/-- Whether a byte string starts with "../" (used by Go filepath.IsLocal). -/
def hasDotDotSlashHead (q : GoStr) : Bool :=
  match q with
  | 46 :: 46 :: 47 :: _ => true
  | _ => false

/-- Go filepath.IsLocal on Unix: nonempty, not absolute, and, after lexical
cleaning when a "." or ".." component appears, not reaching above the
starting directory. -/
def isLocalGo (p : GoStr) : Bool :=
  if p = [] then false
  else if p.head? = some 47 then false
  else
    let hasDots := (splitSlash p).any (fun c => c = [46] || c = [46, 46])
    let q := if hasDots then cleanGo p else p
    !(q = [46, 46] || hasDotDotSlashHead q)

/-- Go filepath.Join(dir, base) on Unix: empty elements are dropped, the
rest joined with '/' and cleaned. -/
def joinGo (dir base : GoStr) : GoStr :=
  if dir = [] then (if base = [] then [] else cleanGo base)
  else cleanGo (dir ++ 47 :: base)

/-- taildrop validFilenameRune (src/taildrop/taildrop.go): rejects '/' and
the Windows-invalid runes, and otherwise requires unicode.IsPrint.  The
unicode.IsPrint character class is passed in as a parameter `isPrintF`
rather than transcribing the Unicode tables. -/
def validFilenameRune (isPrintF : Nat → Bool) (r : Nat) : Bool :=
  if r = 47 then false
  else if r = 92 || r = 58 || r = 42 || r = 34 || r = 60 || r = 62 || r = 124 then false
  else isPrintF r

/-- taildrop deletedSuffix ".deleted". -/
def deletedSuffixG : GoStr := gs ".deleted"

/-- taildrop suffix ".partial" for files still being transferred. -/
def partSuffixG : GoStr := gs ".partial"

/-- taildrop Handler.joinDir (src/taildrop/taildrop.go): validates baseName
(valid UTF-8; no surrounding white space; at most 255 bytes; already clean;
not "." or ".."; no ".deleted"/".partial" suffix; only valid filename
runes; lexically local) and returns filepath.Join(dir, baseName), or none
when any check fails. -/
def joinDirGo (isPrintF : Nat → Bool) (dir baseName : GoStr) : Option GoStr :=
  match utf8Decode baseName with
  | none => none
  | some rs =>
    if trimSpace baseName ≠ baseName then none
    else if 255 < baseName.length then none
    else
      let clean := cleanGo baseName
      if clean ≠ baseName ∨ clean = [46] ∨ clean = [46, 46] ∨
          deletedSuffixG.isSuffixOf clean = true ∨ partSuffixG.isSuffixOf clean = true then none
      else if ¬ (rs.all (validFilenameRune isPrintF) = true) then none
      else if ¬ (isLocalGo baseName = true) then none
      else some (joinGo dir baseName)

/-- Errors surfaced by the model of taildrop Handler.PartialFiles. -/
inductive PFErr where
  | noTaildrop
  | eofErr
  | openFail
deriving DecidableEq

/-- Model of taildrop Handler: the storage directory path together with the
names the directory listing yields (in order) and whether os.Open succeeds. -/
structure TDHandler where
  dirPath : GoStr
  dirEntries : List GoStr
  dirOpenOk : Bool

/-- ClientID.partialSuffix (src/taildrop/resume.go): "." + id + ".partial". -/
def partSuffixOf (id : GoStr) : GoStr := 46 :: id ++ partSuffixG

/-- Go os.File.ReadDir(10) on the not-yet-returned entries: at most 10
entries and a nil error, or, at the end of the directory, no entries and
io.EOF. -/
def readDirStep (pend : List GoStr) : List GoStr × Option PFErr :=
  if pend.isEmpty then ([], some PFErr.eofErr) else (pend.take 10, none)

/-- The read loop of Handler.PartialFiles (src/taildrop/resume.go): note
that the source checks `err != nil` and returns before its `err == io.EOF`
comparison, so the end-of-directory io.EOF is returned to the caller and
the EOF-to-nil branch is unreachable.  The fuel argument only bounds the
recursion: every round consumes at least one pending entry, so fuel equal
to the number of entries (as supplied by partFilesLoop) is never
exhausted, and when it runs out the pending list is already empty. -/
def partFilesLoopAux (suffix : GoStr) :
    Nat → List GoStr → List GoStr → List GoStr × Option PFErr
  | 0, ret, pend => (ret, (readDirStep pend).2)
  | fuel + 1, ret, pend =>
    match readDirStep pend with
    | (_, some e) => (ret, some e)
    | (des, none) =>
      -- the source's `if err == io.EOF { return ret, nil }` would go here,
      -- but err is nil on this branch, so the loop continues
      partFilesLoopAux suffix fuel
        (ret ++ des.filter (fun n => suffix.isSuffixOf n)) (pend.drop 10)

/-- The read loop of Handler.PartialFiles over the directory entries. -/
def partFilesLoop (suffix : GoStr) (ret pend : List GoStr) :
    List GoStr × Option PFErr :=
  partFilesLoopAux suffix pend.length ret pend

/-- taildrop Handler.PartialFiles (src/taildrop/resume.go): errNoTaildrop
when Dir is empty, the os.Open error when the directory cannot be opened,
and otherwise the read loop over the directory entries. -/
def partFilesGo (h : TDHandler) (id : GoStr) : List GoStr × Option PFErr :=
  if h.dirPath = [] then ([], some PFErr.noTaildrop)
  else if ¬ (h.dirOpenOk = true) then ([], some PFErr.openFail)
  else partFilesLoop (partSuffixOf id) [] h.dirEntries

/-- ASCII decimal digit test. -/
def isDigitB (b : Nat) : Bool := 48 ≤ b && b ≤ 57

/-- Value of a string of ASCII decimal digits. -/
def digitsVal (s : GoStr) : Nat := s.foldl (fun a b => a * 10 + (b - 48)) 0

/-- Go strconv.ParseUint(s, 10, 8): nonempty, decimal digits only, value
below 2^8 (Go returns ErrSyntax or ErrRange otherwise). -/
def parseUint8Go (s : GoStr) : Option Nat :=
  if s ≠ [] ∧ s.all isDigitB = true ∧ digitsVal s < 256 then some (digitsVal s) else none

/-- Byte-wise ASCII lowercasing, the case-insensitivity used for protocol
name lookup (the recognized names are all ASCII). -/
def lowerBytes (s : GoStr) : GoStr :=
  s.map (fun b => if 65 ≤ b && b ≤ 90 then b + 32 else b)

/-- ipProtoByName (src/types/ipproto/protoname.go): protocol names
recognized by ResolveProtoName, with their protocol numbers. -/
def ipProtoByName : List (GoStr × Nat) :=
  [(gs "ah", 51), (gs "egp", 8), (gs "esp", 50), (gs "gre", 47),
   (gs "icmp", 1), (gs "igmp", 2), (gs "igp", 9), (gs "ip-in-ip", 4),
   (gs "ipv4", 4), (gs "ipv6-icmp", 58), (gs "sctp", 132), (gs "tcp", 6),
   (gs "udp", 17)]

/-- Modelled from the spec boundary: nocasemaps.GetOk, a case-insensitive
lookup in the all-lowercase-keyed map (the implementation of nocasemaps is
not part of the excerpt). -/
def lookupProtoName (s : GoStr) : Option Nat :=
  (ipProtoByName.find? (fun kv => kv.1 = lowerBytes s)).map (fun kv => kv.2)

/-- Proto TSMP = 99, reserved for Tailscale. -/
def TSMP : Nat := 99

/-- The error cases of ResolveProtoName (vizerror values). -/
inductive RPNErr where
  | tsmpReserved
  | leadingZero
  | unknownName
deriving DecidableEq

/-- ipproto.ResolveProtoName (src/types/ipproto/protoname.go): empty input
gives (0, false, nil); a parseable 8-bit number is rejected when it is TSMP
or written with a leading '0', and accepted otherwise; any other input is
looked up as a case-insensitive protocol name. -/
def resolveProtoName (s : GoStr) : Nat × Bool × Option RPNErr :=
  if s = [] then (0, false, none)
  else
    match parseUint8Go s with
    | some u =>
      if u = TSMP then (0, false, some RPNErr.tsmpReserved)
      else if s.head? = some 48 then (0, false, some RPNErr.leadingZero)
      else (u, true, none)
    | none =>
      match lookupProtoName s with
      | some p => (p, true, none)
      | none => (0, false, some RPNErr.unknownName)

/-- Modelled from the spec (section 2 and section 8, end-to-end scenario):
the relay keeps, per client public key, the queue of packets forwarded to
that client; a key is a natural number. -/
def RelayQ := Nat → List (Nat × GoStr)

/-- Modelled from the spec: send(dstKey, data) from the client with key
src makes the relay append a ReceivedPacket{source: src, data} to the
destination's queue and to no other queue. -/
def relaySend (st : RelayQ) (src dst : Nat) (data : GoStr) : RelayQ :=
  fun k => if k = dst then st k ++ [(src, data)] else st k

/-- Modelled from the spec: recv() on the client with key k surfaces the
next ReceivedPacket of k's own queue. -/
def relayRecv (st : RelayQ) (k : Nat) : Option (Nat × GoStr) := (st k).head?

/-- Events seen by the Watch Loop (spec section 4.5): a PeerPresent frame,
a PeerGone frame, or a reconnect of the underlying connection. -/
inductive WEv where
  | present (k : Nat)
  | gone (k : Nat)
  | reconnect

/-- Callbacks the Watch Loop fires. -/
inductive WCb where
  | add (k : Nat)
  | remove (k : Nat)

/-- Modelled from the spec (section 4.5): one step of the Watch Loop
bookkeeping.  PeerPresent fires onAdd only for a key not already present,
PeerGone fires onRemove only for a present key, and a reconnect starts
fresh bookkeeping, the presence observably regressing to empty (onRemove
for every present key) until re-announcements arrive. -/
def wstep (s : List Nat) : WEv → List Nat × List WCb
  | WEv.present k => if k ∈ s then (s, []) else (k :: s, [WCb.add k])
  | WEv.gone k => if k ∈ s then (s.erase k, [WCb.remove k]) else (s, [])
  | WEv.reconnect => ([], s.map WCb.remove)

/-- Run the Watch Loop over a sequence of events, collecting the callback
trace. -/
def wrun (s : List Nat) : List WEv → List Nat × List WCb
  | [] => (s, [])
  | e :: evs => ((wrun (wstep s e).1 evs).1, (wstep s e).2 ++ (wrun (wstep s e).1 evs).2)

/-- The key a callback concerns. -/
def cbKey : WCb → Nat
  | WCb.add k => k
  | WCb.remove k => k

/-- Whether a callback is an onAdd. -/
def cbIsAdd : WCb → Bool
  | WCb.add _ => true
  | WCb.remove _ => false

/-- The add/remove pattern of the callbacks fired for one key. -/
def projKey (k : Nat) (tr : List WCb) : List Bool :=
  (tr.filter (fun c => cbKey c = k)).map cbIsAdd

/-- Strict alternation of a callback pattern, given the polarity expected
next (true: an add is expected, false: a remove is expected). -/
def altFrom : Bool → List Bool → Bool
  | _, [] => true
  | e, b :: rest => (b = e) && altFrom (!b) rest

/-- All the intermediate peer-presence states of a Watch Loop run. -/
def wstates (s : List Nat) : List WEv → List (List Nat)
  | [] => [s]
  | e :: evs => s :: wstates (wstep s e).1 evs

/-- Modelled from the spec (section 8, reconnect convergence): each
severing of the connection is a reconnect followed by the relay's
re-announcement of its one other peer. -/
def severCycle (p : Nat) : Nat → List WEv
  | 0 => []
  | n + 1 => WEv.reconnect :: WEv.present p :: severCycle p n

/-- The event sequence of the reconnect-convergence scenario: the initial
announcement of the single peer, then n severed connections. -/
def c3events (p : Nat) (n : Nat) : List WEv := WEv.present p :: severCycle p n

/-- Events observed by a ping call (spec section 4.3): a Pong frame with a
nonce, the deadline/cancellation firing, or any other frame (consumed and
ignored by the waiter). -/
inductive PEv where
  | pong (n : Nat)
  | deadline
  | ignore

/-- Modelled from the spec (section 4.3): the ping waiter consumes events
until a Pong carrying its own nonce (success) or the deadline (timeout
error), and in either case is removed from the pending-ping table; the
second component reports whether the waiter is still pending. -/
def pingWait (nonce : Nat) : List PEv → Option Bool × Bool
  | [] => (none, true)
  | PEv.pong m :: rest => if m = nonce then (some true, false) else pingWait nonce rest
  | PEv.deadline :: _ => (some false, false)
  | PEv.ignore :: rest => pingWait nonce rest

/-- Stated from the spec's own words, for comparison with pingWait: a Pong
with the matching nonce is observed before the deadline fires. -/
def pongBeforeDeadline (nonce : Nat) : List PEv → Bool
  | [] => false
  | PEv.pong m :: rest => if m = nonce then true else pongBeforeDeadline nonce rest
  | PEv.deadline :: _ => false
  | PEv.ignore :: rest => pongBeforeDeadline nonce rest

/-- Modelled from the spec (sections 3 and 4.4): the Client's mutable
state is the generation counter of its current Connection and the closed
flag. -/
structure DClient where
  gen : Nat
  closed : Bool

/-- Modelled from the spec: a reconnect swaps in a brand-new Connection
while incrementing the generation counter. -/
def dReconnect (c : DClient) : DClient := { c with gen := c.gen + 1 }

/-- n successive reconnects. -/
def dReconnectN (c : DClient) : Nat → DClient
  | 0 => c
  | n + 1 => dReconnect (dReconnectN c n)

/-- Outcome of an operation attempted through a Connection handle. -/
inductive OpRes where
  | ok
  | stale
  | closedE
deriving DecidableEq

/-- Modelled from the spec: an operation through a Connection handle of
generation g re-validates that the Client is not closed and that g is the
current generation; a superseded generation fails with a staleness error
rather than silently succeeding. -/
def dConnOp (c : DClient) (g : Nat) : OpRes :=
  if c.closed = true then OpRes.closedE
  else if g = c.gen then OpRes.ok
  else OpRes.stale

/-- Modelled from the spec (section 4.1): the fixed protocol magic at the
head of each frame. -/
def magicG : GoStr := gs "DERP"

/-- Modelled from the spec: the protocol-wide maximum payload length. -/
def maxFrameLen : Nat := 1048576

/-- Big-endian 4-byte encoding of a length. -/
def be32 (n : Nat) : GoStr :=
  [n / 16777216 % 256, n / 65536 % 256, n / 256 % 256, n % 256]

/-- Frame decoding errors (spec sections 4.1 and 7). -/
inductive FrameErr where
  | tooLarge
  | badMagic
  | truncated
deriving DecidableEq

/-- Modelled from the spec (section 4.1): encode(type, payload) serializes
the fixed header (magic, frame-type tag, big-endian length) followed by
the payload. -/
def frameEncode (t : Nat) (payload : GoStr) : GoStr :=
  magicG ++ (t % 256) :: be32 payload.length ++ payload

/-- Modelled from the spec (section 4.1): decode reads the header, rejects
a declared length over the protocol maximum with FrameTooLarge before
looking at any payload byte, and otherwise reads exactly that many bytes,
returning the frame and the remaining stream. -/
def frameDecode (s : GoStr) : Except FrameErr (Nat × GoStr × GoStr) :=
  match s with
  | m0 :: m1 :: m2 :: m3 :: t :: l0 :: l1 :: l2 :: l3 :: rest =>
    if [m0, m1, m2, m3] = magicG then
      let n := l0 * 16777216 + l1 * 65536 + l2 * 256 + l3
      if maxFrameLen < n then Except.error FrameErr.tooLarge
      else if rest.length < n then Except.error FrameErr.truncated
      else Except.ok (t, rest.take n, rest.drop n)
    else Except.error FrameErr.badMagic
  | _ => Except.error FrameErr.truncated

/-- The receive-relevant state of a Connection: its unread input and its
validity flag. -/
structure ConnSt where
  inbuf : GoStr
  valid : Bool

/-- Errors surfaced by a recv call. -/
inductive RecvErr where
  | closedE
  | tooLarge
  | transport
deriving DecidableEq

/-- Modelled from the spec (sections 4.3 and 7): a recv step decodes one
frame; a SizeError (FrameTooLarge) is fatal to the specific call only and
leaves the Connection usable, while other decode failures are transport
errors that invalidate the Connection. -/
def connRecvStep (c : ConnSt) : Except RecvErr (Nat × GoStr) × ConnSt :=
  if c.valid = false then (Except.error RecvErr.closedE, c)
  else
    match frameDecode c.inbuf with
    | Except.ok (t, p, rest) => (Except.ok (t, p), { c with inbuf := rest })
    | Except.error FrameErr.tooLarge => (Except.error RecvErr.tooLarge, c)
    | Except.error _ => (Except.error RecvErr.transport, { c with valid := false })

/-- C1: after client A (key kA) sends data addressed to client B (key kB)
on one relay, B's recv returns exactly ReceivedPacket{source: kA, data},
and the queue of any other connected client, in particular a third client
C with kC distinct from kB, is untouched, so C's recv never surfaces the
packet. -/
theorem C1_send_recv_isolation (st : RelayQ) (kA kB kC : Nat) (data : GoStr)
    (hCB : kC ≠ kB) (hB : st kB = []) (hC : (kA, data) ∉ st kC) :
    relayRecv (relaySend st kA kB data) kB = some (kA, data) ∧
    (kA, data) ∉ relaySend st kA kB data kC ∧
    relaySend st kA kB data kC = st kC := by
  refine ⟨?_, ?_, ?_⟩
  · simp [relayRecv, relaySend, hB]
  · simpa [relaySend, hCB] using hC
  · simp [relaySend, hCB]

/-- C1 witness: on an idle relay, key 0 sends "hello 0->1" to key 1; key
1's recv returns the packet with source 0, and key 2's queue stays empty. -/
theorem C1_send_recv_isolation_witness :
    relayRecv (relaySend (fun _ => []) 0 1 (gs "hello 0->1")) 1 = some (0, gs "hello 0->1") ∧
    (0, gs "hello 0->1") ∉ relaySend (fun _ => []) 0 1 (gs "hello 0->1") 2 := by
  have h := C1_send_recv_isolation (fun _ => []) 0 1 2 (gs "hello 0->1")
    (by decide) rfl (by simp)
  exact ⟨h.1, h.2.1⟩

/-- C4: ping returns success exactly when a Pong carrying the matching
nonce is observed before the deadline fires; when the deadline fires with
no matching Pong before it, ping returns the timeout error; and in either
resolved case the waiter is removed from the pending-ping table (released,
not leaked). -/
theorem C4_ping_pong (nonce : Nat) (evs : List PEv) :
    ((pingWait nonce evs).1 = some true ↔ pongBeforeDeadline nonce evs = true) ∧
    (PEv.deadline ∈ evs → pongBeforeDeadline nonce evs = false →
      (pingWait nonce evs).1 = some false) ∧
    (∀ r, (pingWait nonce evs).1 = some r → (pingWait nonce evs).2 = false) := by
  induction evs with
  | nil => simp [pingWait, pongBeforeDeadline]
  | cons e rest ih =>
    cases e with
    | pong m =>
      by_cases hm : m = nonce
      · simp [pingWait, pongBeforeDeadline, hm]
      · simpa [pingWait, pongBeforeDeadline, hm] using ih
    | deadline => simp [pingWait, pongBeforeDeadline]
    | ignore => simpa [pingWait, pongBeforeDeadline] using ih

/-- C4 witness: with nonce 1, a Pong with nonce 2 followed by the deadline
yields the timeout result and releases the waiter. -/
theorem C4_ping_pong_witness :
    (pingWait 1 [PEv.pong 2, PEv.deadline]).1 = some false ∧
    (pingWait 1 [PEv.pong 2, PEv.deadline]).2 = false := by
  have h := C4_ping_pong 1 [PEv.pong 2, PEv.deadline]
  have hres := h.2.1 (by simp) (by decide)
  exact ⟨hres, h.2.2 false hres⟩

/-- C7: the generation id of the Connection produced by each further
reconnect is strictly greater than the generation it replaces, and an
operation presented through a handle whose generation is not the current
one, on a non-closed Client, fails with the staleness error rather than
succeeding. -/
theorem C7_generation_staleness (c : DClient) (n : Nat) (g : Nat) :
    (dReconnectN c n).gen < (dReconnectN c (n + 1)).gen ∧
    (g ≠ c.gen → c.closed = false →
      dConnOp c g = OpRes.stale ∧ dConnOp c g ≠ OpRes.ok) := by
  constructor
  · simp [dReconnectN, dReconnect]
  · intro hg hc
    constructor
    · simp [dConnOp, hc, hg]
    · simp [dConnOp, hc, hg]

/-- C7 witness: starting from generation 0, the first reconnect increases
the generation, and an operation through stale generation 5 fails stale. -/
theorem C7_generation_staleness_witness :
    (dReconnectN ⟨0, false⟩ 0).gen < (dReconnectN ⟨0, false⟩ 1).gen ∧
    dConnOp ⟨0, false⟩ 5 = OpRes.stale := by
  have h := C7_generation_staleness ⟨0, false⟩ 0 5
  exact ⟨h.1, (h.2 (by decide) rfl).1⟩

/-- C5: for every frame type byte and every payload no longer than the
protocol maximum, decoding the bytes produced by encode yields exactly the
type and payload back (with any following bytes untouched): decode is a
left inverse of encode on all valid type/payload pairs. -/
theorem C5_codec_roundtrip (t : Nat) (payload rest : GoStr)
    (ht : t < 256) (hlen : payload.length ≤ maxFrameLen) :
    frameDecode (frameEncode t payload ++ rest) = Except.ok (t, payload, rest) := by
  have hmagic : magicG = [68, 69, 82, 80] := rfl
  have hmax : maxFrameLen = 1048576 := rfl
  have hmod : t % 256 = t := Nat.mod_eq_of_lt ht
  have henc : frameEncode t payload ++ rest =
      68 :: 69 :: 82 :: 80 :: t ::
      (payload.length / 16777216 % 256) :: (payload.length / 65536 % 256) ::
      (payload.length / 256 % 256) :: (payload.length % 256) :: (payload ++ rest) := by
    simp [frameEncode, hmagic, be32, hmod]
  rw [henc]
  have hn : payload.length / 16777216 % 256 * 16777216 +
      payload.length / 65536 % 256 * 65536 +
      payload.length / 256 % 256 * 256 + payload.length % 256 = payload.length := by
    omega
  simp only [frameDecode, hmagic, hn]
  have hnot : ¬ (maxFrameLen < payload.length) := by omega
  have hlen2 : ¬ ((payload ++ rest).length < payload.length) := by
    simp [List.length_append]
  simp [hnot, hlen2, List.take_left, List.drop_left]

/-- C5 witness: decoding the encoding of frame type 5 with payload "abc"
followed by trailing bytes returns exactly the type, the payload and the
trailing bytes. -/
theorem C5_codec_roundtrip_witness :
    frameDecode (frameEncode 5 (gs "abc") ++ gs "xy") = Except.ok (5, gs "abc", gs "xy") :=
  C5_codec_roundtrip 5 (gs "abc") (gs "xy") (by decide) (by decide)

/-- C6: a frame header declaring a payload length over the protocol
maximum makes decode fail with FrameTooLarge no matter what bytes follow
the header (so the declared payload is neither read nor inspected), and a
recv step hitting this error leaves the Connection valid: the failure is
fatal to that call only. -/
theorem C6_decode_too_large (t n : Nat) (hn : maxFrameLen < n) (h32 : n < 4294967296) :
    (∀ rest : GoStr,
      frameDecode (magicG ++ t :: be32 n ++ rest) = Except.error FrameErr.tooLarge) ∧
    (∀ rest : GoStr,
      (connRecvStep ⟨magicG ++ t :: be32 n ++ rest, true⟩).1 = Except.error RecvErr.tooLarge ∧
      (connRecvStep ⟨magicG ++ t :: be32 n ++ rest, true⟩).2.valid = true) := by
  have hmagic : magicG = [68, 69, 82, 80] := rfl
  have hdec : ∀ rest : GoStr,
      frameDecode (magicG ++ t :: be32 n ++ rest) = Except.error FrameErr.tooLarge := by
    intro rest
    have henc : magicG ++ t :: be32 n ++ rest =
        68 :: 69 :: 82 :: 80 :: t :: (n / 16777216 % 256) :: (n / 65536 % 256) ::
        (n / 256 % 256) :: (n % 256) :: rest := by
      simp [hmagic, be32]
    rw [henc]
    have hval : n / 16777216 % 256 * 16777216 + n / 65536 % 256 * 65536 +
        n / 256 % 256 * 256 + n % 256 = n := by omega
    simp only [frameDecode, hmagic, hval]
    simp [hn]
  refine ⟨hdec, fun rest => ?_⟩
  have h2 := hdec rest
  simp only [List.cons_append, List.append_assoc] at h2
  constructor
  · simp [connRecvStep, h2]
  · simp [connRecvStep, h2]

/-- C6 witness: a header declaring length 1048577 (one over the maximum)
decodes to FrameTooLarge and leaves the Connection valid. -/
theorem C6_decode_too_large_witness :
    frameDecode (magicG ++ 5 :: be32 1048577 ++ gs "x") = Except.error FrameErr.tooLarge ∧
    (connRecvStep ⟨magicG ++ 5 :: be32 1048577 ++ gs "x", true⟩).2.valid = true := by
  have h := C6_decode_too_large 5 1048577 (by decide) (by decide)
  exact ⟨h.1 (gs "x"), (h.2 (gs "x")).2⟩

/-- Filtering a duplicate-free list for one value yields that value when
present and nothing otherwise. -/
theorem nodup_filter_singleton (k : Nat) :
    ∀ (s : List Nat), s.Nodup →
      s.filter (fun x => x = k) = if k ∈ s then [k] else [] := by
  intro s
  induction s with
  | nil => simp
  | cons a t ih =>
    intro hs
    have hat : a ∉ t := (List.nodup_cons.mp hs).1
    have ht : t.Nodup := (List.nodup_cons.mp hs).2
    by_cases hak : a = k
    · rw [hak] at hat ⊢
      have ht' : t.filter (fun x => x = k) = [] := by
        rw [ih ht]
        simp [hat]
      simp [List.filter_cons, ht']
    · have hka : ¬ k = a := fun h => hak h.symm
      by_cases hk : k ∈ t <;>
        simp [List.filter_cons, hak, hka, hk, ih ht]

/-- The callback pattern for one key, on a trace with a known head. -/
theorem projKey_cons (k : Nat) (c : WCb) (tr : List WCb) :
    projKey k (c :: tr) =
      (if cbKey c = k then [cbIsAdd c] else []) ++ projKey k tr := by
  simp only [projKey, List.filter_cons]
  by_cases h : cbKey c = k <;> simp [h]

/-- The callback pattern for one key distributes over trace
concatenation. -/
theorem projKey_append (k : Nat) (a b : List WCb) :
    projKey k (a ++ b) = projKey k a ++ projKey k b := by
  simp [projKey, List.filter_append]

/-- Invariant of the Watch Loop bookkeeping: starting from a
duplicate-free present-set s, the callbacks fired for any key k strictly
alternate, the polarity expected next being an add exactly when k is not
currently present. -/
theorem wrun_alt (k : Nat) :
    ∀ (evs : List WEv) (s : List Nat), s.Nodup →
      altFrom (!(decide (k ∈ s))) (projKey k (wrun s evs).2) = true := by
  intro evs
  induction evs with
  | nil => intro s _; simp [wrun, projKey, altFrom]
  | cons e evs ih =>
    intro s hs
    cases e with
    | present j =>
      by_cases hj : j ∈ s
      · have hst : wstep s (WEv.present j) = (s, []) := by simp [wstep, hj]
        simp only [wrun, hst, List.nil_append]
        exact ih s hs
      · have hst : wstep s (WEv.present j) = (j :: s, [WCb.add j]) := by simp [wstep, hj]
        have htail := ih (j :: s) (List.nodup_cons.mpr ⟨hj, hs⟩)
        simp only [wrun, hst, List.singleton_append, projKey_cons, cbKey, cbIsAdd]
        by_cases hjk : j = k
        · rw [hjk] at hj htail ⊢
          have hks : decide (k ∈ s) = false := by simpa using hj
          have hkj : decide (k ∈ k :: s) = true := by simp
          rw [hkj] at htail
          simpa [altFrom, hks] using htail
        · have hmem : decide (k ∈ j :: s) = decide (k ∈ s) := by
            simp only [List.mem_cons, decide_eq_decide]
            exact ⟨fun h => h.elim (fun h' => absurd h'.symm hjk) id, Or.inr⟩
          rw [hmem] at htail
          simpa [hjk] using htail
    | gone j =>
      by_cases hj : j ∈ s
      · have hst : wstep s (WEv.gone j) = (s.erase j, [WCb.remove j]) := by
          simp [wstep, hj]
        have htail := ih (s.erase j) (hs.erase j)
        simp only [wrun, hst, List.singleton_append, projKey_cons, cbKey, cbIsAdd]
        by_cases hjk : j = k
        · rw [hjk] at hj htail ⊢
          have hkerase : decide (k ∈ s.erase k) = false := by
            simpa using hs.not_mem_erase
          have hks : decide (k ∈ s) = true := by simpa using hj
          rw [hkerase] at htail
          simpa [altFrom, hks] using htail
        · have hmem : decide (k ∈ s.erase j) = decide (k ∈ s) := by
            simp only [decide_eq_decide]
            exact List.mem_erase_of_ne (fun h => hjk h.symm)
          rw [hmem] at htail
          simpa [hjk] using htail
      · have hst : wstep s (WEv.gone j) = (s, []) := by simp [wstep, hj]
        simp only [wrun, hst, List.nil_append]
        exact ih s hs
    | reconnect =>
      have hst : wstep s WEv.reconnect = ([], s.map WCb.remove) := by simp [wstep]
      have hfilt : (s.map WCb.remove).filter (fun c => cbKey c = k) =
          (s.filter (fun x => x = k)).map WCb.remove := by
        rw [List.filter_map]
        rfl
      have hproj : projKey k (s.map WCb.remove) = if k ∈ s then [false] else [] := by
        rw [projKey, hfilt, nodup_filter_singleton k s hs]
        by_cases hk : k ∈ s <;> simp [hk, cbIsAdd]
      have htail : altFrom true (projKey k (wrun [] evs).2) = true := by
        simpa using ih [] List.nodup_nil
      simp only [wrun, hst, projKey_append, hproj]
      by_cases hk : k ∈ s
      · have hks : decide (k ∈ s) = true := by simpa using hk
        rw [if_pos hk, hks]
        simpa [altFrom] using htail
      · have hks : decide (k ∈ s) = false := by simpa using hk
        rw [if_neg hk, hks]
        simpa using htail

/-- C2: for every key, over any sequence of Watch Loop events, including
reconnects, the onAdd/onRemove callbacks fired for that key strictly
alternate, starting with onAdd: never two consecutive adds without an
intervening remove, and never two consecutive removes without an
intervening add. -/
theorem C2_watch_alternation (evs : List WEv) (k : Nat) :
    altFrom true (projKey k (wrun [] evs).2) = true := by
  simpa using wrun_alt k evs [] List.nodup_nil

/-- Running the sever/re-announce cycle from the single-peer state returns
to the single-peer state, with exactly n adds and n removes fired. -/
theorem wrun_sever (p : Nat) :
    ∀ n : Nat,
      (wrun [p] (severCycle p n)).1 = [p] ∧
      ((wrun [p] (severCycle p n)).2.filter cbIsAdd).length = n ∧
      ((wrun [p] (severCycle p n)).2.filter (fun c => !(cbIsAdd c))).length = n := by
  intro n
  induction n with
  | zero => simp [severCycle, wrun]
  | succ m ih =>
    have h1 : wstep [p] WEv.reconnect = ([], [WCb.remove p]) := by simp [wstep]
    have h2 : wstep ([] : List Nat) (WEv.present p) = ([p], [WCb.add p]) := by
      simp [wstep]
    have e1 : List.filter cbIsAdd [WCb.remove p] = [] := rfl
    have e2 : List.filter cbIsAdd [WCb.add p] = [WCb.add p] := rfl
    have e3 : List.filter (fun c => !(cbIsAdd c)) [WCb.remove p] = [WCb.remove p] := rfl
    have e4 : List.filter (fun c => !(cbIsAdd c)) [WCb.add p] = [] := rfl
    refine ⟨?_, ?_, ?_⟩
    · simp only [severCycle, wrun, h1, h2]
      exact ih.1
    · have h := ih.2.1
      simp only [severCycle, wrun, h1, h2, List.filter_append, List.length_append,
        e1, e2, List.length_nil, List.length_cons]
      omega
    · have h := ih.2.2
      simp only [severCycle, wrun, h1, h2, List.filter_append, List.length_append,
        e3, e4, List.length_nil, List.length_cons]
      omega

/-- Every intermediate presence state of the sever/re-announce cycle is
the single-peer state or the empty state. -/
theorem wstates_sever (p : Nat) :
    ∀ n : Nat, ∀ s ∈ wstates [p] (severCycle p n), s = [p] ∨ s = [] := by
  intro n
  induction n with
  | zero =>
    intro s hsm
    simp only [severCycle, wstates, List.mem_singleton] at hsm
    exact Or.inl hsm
  | succ m ih =>
    intro s hsm
    have h1 : wstep [p] WEv.reconnect = ([], [WCb.remove p]) := by simp [wstep]
    have h2 : wstep ([] : List Nat) (WEv.present p) = ([p], [WCb.add p]) := by
      simp [wstep]
    simp only [severCycle, wstates, h1, h2, List.mem_cons] at hsm
    rcases hsm with h | h | h
    · exact Or.inl h
    · exact Or.inr h
    · exact ih s h

/-- C3: in the reconnect-convergence scenario (a relay reporting exactly
one other peer, severed and re-announced n times), the observed peer set
converges back to exactly that one peer after every severing, the count of
observed peers never reaches 2 at any intermediate point, the adds exceed
the removes by exactly one, and the add/remove callbacks alternate for the
peer's key. -/
theorem C3_reconnect_convergence (p : Nat) (n : Nat) :
    (wrun [] (c3events p n)).1 = [p] ∧
    (∀ s ∈ wstates [] (c3events p n), s.length ≤ 1) ∧
    ((wrun [] (c3events p n)).2.filter cbIsAdd).length =
      ((wrun [] (c3events p n)).2.filter (fun c => !(cbIsAdd c))).length + 1 ∧
    altFrom true (projKey p (wrun [] (c3events p n)).2) = true := by
  have h2 : wstep ([] : List Nat) (WEv.present p) = ([p], [WCb.add p]) := by
    simp [wstep]
  refine ⟨?_, ?_, ?_, ?_⟩
  · simp only [c3events, wrun, h2]
    exact (wrun_sever p n).1
  · intro s hsm
    simp only [c3events, wstates, h2, List.mem_cons] at hsm
    rcases hsm with h | h
    · simp [h]
    · rcases wstates_sever p n s h with h' | h' <;> simp [h']
  · have ha := (wrun_sever p n).2.1
    have hr := (wrun_sever p n).2.2
    have e2 : List.filter cbIsAdd [WCb.add p] = [WCb.add p] := rfl
    have e4 : List.filter (fun c => !(cbIsAdd c)) [WCb.add p] = [] := rfl
    simp only [c3events, wrun, h2, List.filter_append, List.length_append,
      e2, e4, List.length_nil, List.length_cons]
    omega
  · simpa using wrun_alt p (c3events p n) [] List.nodup_nil

/-- C3 witness: with peer key 7 and two severed connections, the observed
peer set ends at exactly that peer and the callbacks for key 7 alternate. -/
theorem C3_reconnect_convergence_witness :
    (wrun [] (c3events 7 2)).1 = [7] ∧
    altFrom true (projKey 7 (wrun [] (c3events 7 2)).2) = true := by
  have h := C3_reconnect_convergence 7 2
  exact ⟨h.1, h.2.2.2⟩

/-- C9: evaluation at the failing input.  On a Handler whose non-empty
directory opens and is read to the end with no real I/O failure, the
PartialFiles of src/taildrop/resume.go computes the correctly filtered
".<id>.partial" names but returns the end-of-directory io.EOF as its
error, instead of the nil error the claim describes: the source's
`if err != nil` return precedes its `err == io.EOF` check, which is
therefore unreachable. -/
theorem C9_partFiles_eof_surfaced :
    partFilesGo ⟨gs "/dst", [gs "a.n123.partial", gs "b.txt", gs "c.n123.partial"], true⟩
      (gs "n123") =
      ([gs "a.n123.partial", gs "c.n123.partial"], some PFErr.eofErr) := by
  decide

/-- When every byte of a string is an ASCII digit, byte-wise lowercasing
leaves it unchanged. -/
theorem lowerBytes_digits (s : GoStr) (h : s.all isDigitB = true) :
    lowerBytes s = s := by
  induction s with
  | nil => rfl
  | cons b t ih =>
    simp only [List.all_cons, Bool.and_eq_true] at h
    have hb : (48 ≤ b && b ≤ 57) = true := h.1
    simp only [Bool.and_eq_true, decide_eq_true_eq] at hb
    simp only [lowerBytes, List.map_cons]
    rw [show (if 65 ≤ b && b ≤ 90 then b + 32 else b) = b from by
      have : (65 ≤ b && b ≤ 90) = false := by
        simp only [Bool.and_eq_false_iff, decide_eq_false_iff_not]
        omega
      simp [this]]
    have := ih h.2
    simp only [lowerBytes] at this
    rw [this]

/-- No recognized protocol name consists only of digits. -/
theorem ipProtoByName_no_digits :
    ipProtoByName.all (fun kv => !(kv.1.all isDigitB)) = true := by decide

/-- C10: ResolveProtoName succeeds exactly on a non-empty all-digit string
whose value fits in 8 bits, is not 99 (TSMP) and is not written with a
leading '0', or on a case-insensitive match of a recognized protocol name;
the empty string yields (0, false, nil) with no error, and every other
failing input yields ok = false together with a non-nil error. -/
theorem C10_resolveProtoName (s : GoStr) :
    (resolveProtoName [] = (0, false, none)) ∧
    ((resolveProtoName s).2.1 = true ↔
      ((s ≠ [] ∧ s.all isDigitB = true ∧ digitsVal s < 256 ∧ digitsVal s ≠ 99 ∧
        s.head? ≠ some 48) ∨
       (∃ kv ∈ ipProtoByName, kv.1 = lowerBytes s))) ∧
    (s ≠ [] → (resolveProtoName s).2.1 = false → (resolveProtoName s).2.2 ≠ none) := by
  refine ⟨rfl, ?_, ?_⟩
  · by_cases hs : s = []
    · subst hs
      constructor
      · intro h; simp [resolveProtoName] at h
      · rintro (⟨h, _⟩ | ⟨kv, hkv, heq⟩)
        · exact absurd rfl h
        · exfalso
          have hne : ipProtoByName.all (fun kv => !(kv.1.isEmpty)) = true := by decide
          have hall := List.all_eq_true.mp hne kv hkv
          have hk1 : kv.1 = [] := by simpa [lowerBytes] using heq
          rw [hk1] at hall
          simp at hall
    · by_cases hp : s ≠ [] ∧ s.all isDigitB = true ∧ digitsVal s < 256
      · have hparse : parseUint8Go s = some (digitsVal s) := by
          simp [parseUint8Go, hp.1, hp.2.1, hp.2.2]
        have hnames : ∀ kv ∈ ipProtoByName, kv.1 ≠ lowerBytes s := by
          intro kv hkv heq
          have hlow : lowerBytes s = s := lowerBytes_digits s hp.2.1
          rw [hlow] at heq
          have hkd : (!(kv.1.all isDigitB)) = true :=
            List.all_eq_true.mp ipProtoByName_no_digits kv hkv
          rw [heq, hp.2.1] at hkd
          simp at hkd
        by_cases h99 : digitsVal s = 99
        · have : resolveProtoName s = (0, false, some RPNErr.tsmpReserved) := by
            simp [resolveProtoName, hs, hparse, TSMP, h99]
          rw [this]
          constructor
          · intro h; simp at h
          · rintro (⟨_, _, _, h99', _⟩ | ⟨kv, hkv, heq⟩)
            · exact absurd h99 h99'
            · exact absurd heq (hnames kv hkv)
        · by_cases h0 : s.head? = some 48
          · have : resolveProtoName s = (0, false, some RPNErr.leadingZero) := by
              simp [resolveProtoName, hs, hparse, TSMP, h99, h0]
            rw [this]
            constructor
            · intro h; simp at h
            · rintro (⟨_, _, _, _, h0'⟩ | ⟨kv, hkv, heq⟩)
              · exact absurd h0 h0'
              · exact absurd heq (hnames kv hkv)
          · have : resolveProtoName s = (digitsVal s, true, none) := by
              simp [resolveProtoName, hs, hparse, TSMP, h99, h0]
            rw [this]
            constructor
            · intro _
              exact Or.inl ⟨hs, hp.2.1, hp.2.2, h99, h0⟩
            · intro _; rfl
      · have hparse : parseUint8Go s = none := by
          simp only [parseUint8Go, ite_eq_right_iff]
          intro hc
          exact absurd ⟨hc.1, hc.2.1, hc.2.2⟩ hp
        have hsplit : (resolveProtoName s).2.1 = true ↔
            (∃ kv ∈ ipProtoByName, kv.1 = lowerBytes s) := by
          rcases hlk : lookupProtoName s with _ | p
          · have : resolveProtoName s = (0, false, some RPNErr.unknownName) := by
              simp [resolveProtoName, hs, hparse, hlk]
            rw [this]
            constructor
            · intro h; simp at h
            · rintro ⟨kv, hkv, heq⟩
              have : (ipProtoByName.find? (fun kv => kv.1 = lowerBytes s)).isSome := by
                rw [List.find?_isSome]
                exact ⟨kv, hkv, by simp [heq]⟩
              rw [show ipProtoByName.find? (fun kv => kv.1 = lowerBytes s) = none from by
                simpa [lookupProtoName] using hlk] at this
              simp at this
          · have : resolveProtoName s = (p, true, none) := by
              simp [resolveProtoName, hs, hparse, hlk]
            rw [this]
            simp only [true_iff]
            have hfind : ∃ kv, ipProtoByName.find? (fun kv => kv.1 = lowerBytes s) = some kv := by
              rcases hf : ipProtoByName.find? (fun kv => kv.1 = lowerBytes s) with _ | kv
              · simp [lookupProtoName, hf] at hlk
              · exact ⟨kv, hf⟩
            rcases hfind with ⟨kv, hkv⟩
            exact ⟨kv, List.mem_of_find?_eq_some hkv, by
              have := List.find?_some hkv
              simpa using this⟩
        rw [hsplit]
        constructor
        · exact Or.inr
        · rintro (⟨_, hd, hv, _, _⟩ | h)
          · exact absurd ⟨hs, hd, hv⟩ hp
          · exact h
  · intro hs hok
    rcases hp : parseUint8Go s with _ | u
    · rcases hlk : lookupProtoName s with _ | p
      · simp [resolveProtoName, hs, hp, hlk]
      · simp [resolveProtoName, hs, hp, hlk] at hok
    · by_cases h99 : u = TSMP
      · simp [resolveProtoName, hs, hp, h99]
      · by_cases h0 : s.head? = some 48
        · simp [resolveProtoName, hs, hp, h99, h0]
        · simp [resolveProtoName, hs, hp, h99, h0] at hok

/-- C10 witness: "bogus" is neither a protocol number nor a recognized
name, so resolution fails with a non-nil error. -/
theorem C10_resolveProtoName_witness :
    (resolveProtoName (gs "bogus")).2.2 ≠ none :=
  (C10_resolveProtoName (gs "bogus")).2.2 (by decide) (by decide)

/-- A successfully decoded rune whose encoding contains the byte '/' (47)
is the rune '/' itself: every byte of a multi-byte encoding is at least
128. -/
theorem decodeRuneFront_slash (s : GoStr)
    (herr : ¬((decodeRuneFront s).1 = 65533 ∧ (decodeRuneFront s).2 = 1))
    (hm : 47 ∈ s.take (decodeRuneFront s).2) :
    (decodeRuneFront s).1 = 47 := by
  cases s with
  | nil => simp at hm
  | cons b rest =>
    by_cases hb1 : b < 128
    · have h : decodeRuneFront (b :: rest) = (b, 1) := by
        simp [decodeRuneFront, hb1]
      rw [h] at hm ⊢
      simp at hm
      omega
    · by_cases hb2 : b < 194
      · have h : decodeRuneFront (b :: rest) = (65533, 1) := by
          simp [decodeRuneFront, hb1, hb2]
        rw [h] at herr
        exact absurd ⟨rfl, rfl⟩ herr
      · by_cases hb3 : b < 224
        · cases rest with
          | nil =>
            have h : decodeRuneFront [b] = (65533, 1) := by
              simp [decodeRuneFront, hb1, hb2, hb3]
            rw [h] at herr
            exact absurd ⟨rfl, rfl⟩ herr
          | cons b1 rest2 =>
            by_cases hc1 : isCont b1
            · have h : decodeRuneFront (b :: b1 :: rest2) =
                  ((b - 192) * 64 + (b1 - 128), 2) := by
                simp [decodeRuneFront, hb1, hb2, hb3, hc1]
              rw [h] at hm
              simp only [isCont, Bool.and_eq_true, decide_eq_true_eq] at hc1
              simp at hm
              omega
            · have h : decodeRuneFront (b :: b1 :: rest2) = (65533, 1) := by
                simp [decodeRuneFront, hb1, hb2, hb3, hc1]
              rw [h] at herr
              exact absurd ⟨rfl, rfl⟩ herr
        · by_cases hb4 : b < 240
          · cases rest with
            | nil =>
              have h : decodeRuneFront [b] = (65533, 1) := by
                simp [decodeRuneFront, hb1, hb2, hb3, hb4]
              rw [h] at herr
              exact absurd ⟨rfl, rfl⟩ herr
            | cons b1 rest' =>
              cases rest' with
              | nil =>
                have h : decodeRuneFront [b, b1] = (65533, 1) := by
                  simp [decodeRuneFront, hb1, hb2, hb3, hb4]
                rw [h] at herr
                exact absurd ⟨rfl, rfl⟩ herr
              | cons b2 rest3 =>
                by_cases hcc : isCont b1 && isCont b2
                · by_cases hr : 2048 ≤ (b - 224) * 4096 + (b1 - 128) * 64 + (b2 - 128) ∧
                      ((b - 224) * 4096 + (b1 - 128) * 64 + (b2 - 128) < 55296 ∨
                       57343 < (b - 224) * 4096 + (b1 - 128) * 64 + (b2 - 128))
                  · have h : decodeRuneFront (b :: b1 :: b2 :: rest3) =
                        ((b - 224) * 4096 + (b1 - 128) * 64 + (b2 - 128), 3) := by
                      simp only [decodeRuneFront, if_neg hb1, if_neg hb2, if_neg hb3,
                        if_pos hb4, if_pos hcc]
                      rw [if_pos]
                      simp only [Bool.and_eq_true, Bool.or_eq_true, decide_eq_true_eq]
                      exact ⟨hr.1, hr.2⟩
                    rw [h] at hm
                    simp only [Bool.and_eq_true, isCont, decide_eq_true_eq] at hcc
                    simp at hm
                    omega
                  · have h : decodeRuneFront (b :: b1 :: b2 :: rest3) = (65533, 1) := by
                      simp only [decodeRuneFront, if_neg hb1, if_neg hb2, if_neg hb3,
                        if_pos hb4, if_pos hcc]
                      rw [if_neg]
                      simp only [Bool.and_eq_true, Bool.or_eq_true, decide_eq_true_eq]
                      exact fun hx => hr ⟨hx.1, hx.2⟩
                    rw [h] at herr
                    exact absurd ⟨rfl, rfl⟩ herr
                · have h : decodeRuneFront (b :: b1 :: b2 :: rest3) = (65533, 1) := by
                    simp [decodeRuneFront, hb1, hb2, hb3, hb4, hcc]
                  rw [h] at herr
                  exact absurd ⟨rfl, rfl⟩ herr
          · by_cases hb5 : b < 245
            · cases rest with
              | nil =>
                have h : decodeRuneFront [b] = (65533, 1) := by
                  simp [decodeRuneFront, hb1, hb2, hb3, hb4, hb5]
                rw [h] at herr
                exact absurd ⟨rfl, rfl⟩ herr
              | cons b1 rest' =>
                cases rest' with
                | nil =>
                  have h : decodeRuneFront [b, b1] = (65533, 1) := by
                    simp [decodeRuneFront, hb1, hb2, hb3, hb4, hb5]
                  rw [h] at herr
                  exact absurd ⟨rfl, rfl⟩ herr
                | cons b2 rest'' =>
                  cases rest'' with
                  | nil =>
                    have h : decodeRuneFront [b, b1, b2] = (65533, 1) := by
                      simp [decodeRuneFront, hb1, hb2, hb3, hb4, hb5]
                    rw [h] at herr
                    exact absurd ⟨rfl, rfl⟩ herr
                  | cons b3 rest4 =>
                    by_cases hcc : isCont b1 && isCont b2 && isCont b3
                    · by_cases hr : 65536 ≤ (b - 240) * 262144 + (b1 - 128) * 4096 +
                          (b2 - 128) * 64 + (b3 - 128) ∧
                          (b - 240) * 262144 + (b1 - 128) * 4096 + (b2 - 128) * 64 +
                            (b3 - 128) ≤ 1114111
                      · have h : decodeRuneFront (b :: b1 :: b2 :: b3 :: rest4) =
                            ((b - 240) * 262144 + (b1 - 128) * 4096 + (b2 - 128) * 64 +
                              (b3 - 128), 4) := by
                          simp only [decodeRuneFront, if_neg hb1, if_neg hb2, if_neg hb3,
                            if_neg hb4, if_pos hb5, if_pos hcc]
                          rw [if_pos]
                          simp only [Bool.and_eq_true, decide_eq_true_eq]
                          exact ⟨hr.1, hr.2⟩
                        rw [h] at hm
                        simp only [Bool.and_eq_true, isCont, decide_eq_true_eq] at hcc
                        simp at hm
                        omega
                      · have h : decodeRuneFront (b :: b1 :: b2 :: b3 :: rest4) =
                            (65533, 1) := by
                          simp only [decodeRuneFront, if_neg hb1, if_neg hb2, if_neg hb3,
                            if_neg hb4, if_pos hb5, if_pos hcc]
                          rw [if_neg]
                          simp only [Bool.and_eq_true, decide_eq_true_eq]
                          exact fun hx => hr ⟨hx.1, hx.2⟩
                        rw [h] at herr
                        exact absurd ⟨rfl, rfl⟩ herr
                    · have h : decodeRuneFront (b :: b1 :: b2 :: b3 :: rest4) =
                          (65533, 1) := by
                        simp [decodeRuneFront, hb1, hb2, hb3, hb4, hb5, hcc]
                      rw [h] at herr
                      exact absurd ⟨rfl, rfl⟩ herr
            · have h : decodeRuneFront (b :: rest) = (65533, 1) := by
                simp [decodeRuneFront, hb1, hb2, hb3, hb4, hb5]
              rw [h] at herr
              exact absurd ⟨rfl, rfl⟩ herr

/-- The byte '/' (47) survives into the rune sequence of a valid UTF-8
string: every multi-byte encoding consists of bytes at least 128. -/
theorem utf8DecodeAux_slash :
    ∀ (fuel : Nat) (s : GoStr) (rs : List Nat),
      utf8DecodeAux fuel s = some rs → 47 ∈ s → 47 ∈ rs := by
  intro fuel
  induction fuel with
  | zero =>
    intro s rs hdec hm
    cases s with
    | nil => simp at hm
    | cons b rest => simp [utf8DecodeAux] at hdec
  | succ m ih =>
    intro s rs hdec hm
    cases s with
    | nil => simp at hm
    | cons b rest =>
      simp only [utf8DecodeAux] at hdec
      by_cases herr : (decodeRuneFront (b :: rest)).1 = 65533 ∧
          (decodeRuneFront (b :: rest)).2 = 1
      · rw [if_pos (by simp [herr.1, herr.2])] at hdec
        exact absurd hdec (by simp)
      · have hcond : ¬((decide ((decodeRuneFront (b :: rest)).1 = 65533) &&
            decide ((decodeRuneFront (b :: rest)).2 = 1)) = true) := by
          simp only [Bool.and_eq_true, decide_eq_true_eq]
          exact herr
        rw [if_neg hcond] at hdec
        rcases hrec : utf8DecodeAux m ((b :: rest).drop (decodeRuneFront (b :: rest)).2)
          with _ | rs'
        · rw [hrec] at hdec
          exact absurd hdec (by simp)
        · rw [hrec] at hdec
          simp only [Option.some.injEq] at hdec
          rw [← hdec]
          have hsplit : 47 ∈ (b :: rest).take (decodeRuneFront (b :: rest)).2 ∨
              47 ∈ (b :: rest).drop (decodeRuneFront (b :: rest)).2 := by
            rw [← List.mem_append, List.take_append_drop]
            exact hm
          rcases hsplit with hs | hs
          · rw [← decodeRuneFront_slash (b :: rest) herr hs]
            exact List.mem_cons_self _ _
          · exact List.mem_cons_of_mem _ (ih _ rs' hrec hs)

/-- The byte '/' is absent from a byte string whose decoded rune sequence
avoids the rune '/'. -/
theorem utf8Decode_no_slash (s : GoStr) (rs : List Nat)
    (hdec : utf8Decode s = some rs) (hns : 47 ∉ rs) : 47 ∉ s :=
  fun hm => hns (utf8DecodeAux_slash s.length s rs hdec hm)


/-- splitSlash on the empty string: one empty segment. -/
theorem splitSlash_nil : splitSlash [] = [[]] := rfl

/-- splitSlash unfolds by one step on a cons. -/
theorem splitSlash_cons (b : Nat) (t : GoStr) :
    splitSlash (b :: t) = splitStep b (splitSlash t) := rfl

/-- A split step never produces the empty segment list. -/
theorem splitStep_ne_nil (b : Nat) (acc : List GoStr) : splitStep b acc ≠ [] := by
  unfold splitStep
  split
  · simp
  · cases acc <;> simp

/-- A split never produces the empty segment list. -/
theorem splitSlash_ne_nil (s : GoStr) : splitSlash s ≠ [] := by
  cases s with
  | nil => simp [splitSlash_nil]
  | cons b t => rw [splitSlash_cons]; exact splitStep_ne_nil b (splitSlash t)

/-- A split step only touches the first segment, so later segments pass
through unchanged. -/
theorem splitStep_append (b : Nat) (A B : List GoStr) (hA : A ≠ []) :
    splitStep b (A ++ B) = splitStep b A ++ B := by
  unfold splitStep
  split
  · simp
  · cases A with
    | nil => exact absurd rfl hA
    | cons a as => simp

/-- Splitting at slashes distributes over a slash-separated
concatenation. -/
theorem splitSlash_append (xs ys : GoStr) :
    splitSlash (xs ++ 47 :: ys) = splitSlash xs ++ splitSlash ys := by
  induction xs with
  | nil =>
    rw [List.nil_append, splitSlash_cons, splitSlash_nil]
    simp [splitStep]
  | cons x xs ih =>
    rw [List.cons_append, splitSlash_cons, ih, splitSlash_cons]
    exact splitStep_append x (splitSlash xs) (splitSlash ys) (splitSlash_ne_nil xs)

/-- A slash-free byte string splits into the single segment it is. -/
theorem splitSlash_no_slash (s : GoStr) (h : 47 ∉ s) : splitSlash s = [s] := by
  induction s with
  | nil => rfl
  | cons b t ih =>
    have hb : ¬ b = 47 := fun hb => h (by simp [hb])
    have ht : 47 ∉ t := fun hm => h (List.mem_cons_of_mem b hm)
    rw [splitSlash_cons, ih ht]
    simp [splitStep, hb]

/-- The cleaning stack of components extended by one component. -/
theorem cleanStack_append_single (rooted : Bool) (cs : List GoStr) (c : GoStr) :
    cleanStack rooted (cs ++ [c]) = cleanStep rooted (cleanStack rooted cs) c := by
  simp [cleanStack, List.foldl_append]

/-- A component other than "", "." and ".." is pushed onto the cleaning
stack. -/
theorem cleanStep_push (rooted : Bool) (st : List GoStr) (c : GoStr)
    (h0 : c ≠ []) (h1 : c ≠ [46]) (h2 : c ≠ [46, 46]) :
    cleanStep rooted st c = c :: st := by
  simp [cleanStep, h0, h1, h2]

/-- Joining a directory with a slash-free component other than "." and
".." resolves to the directory's own resolution with that component
descended into: the joined path never escapes above the directory. -/
theorem join_under_dir (dir base : GoStr) (rooted : Bool)
    (hn : 47 ∉ base) (h0 : base ≠ []) (h1 : base ≠ [46]) (h2 : base ≠ [46, 46]) :
    cleanStack rooted (splitSlash (dir ++ 47 :: base)) =
      base :: cleanStack rooted (splitSlash dir) := by
  rw [splitSlash_append, splitSlash_no_slash base hn, cleanStack_append_single,
    cleanStep_push rooted _ base h0 h1 h2]

/-- C8: joinDir accepts baseName exactly when baseName is valid UTF-8,
has no leading or trailing white space, is at most 255 bytes, equals its
own path.Clean, is not "." or "..", does not end in ".deleted" or
".partial", contains only valid filename runes (printable, excluding the
slash and Windows-reserved runes), and is lexically local, in which case
the returned path is filepath.Join(dir, baseName); moreover an accepted
baseName is a single slash-free component, so the cleaned joined path is
the cleaned directory with baseName descended into and cannot escape the
directory. -/
theorem C8_joinDir_characterization (isPrintF : Nat → Bool) (dir baseName fp : GoStr) :
    (joinDirGo isPrintF dir baseName = some fp ↔
      ((utf8Decode baseName).isSome = true ∧
       trimSpace baseName = baseName ∧
       baseName.length ≤ 255 ∧
       cleanGo baseName = baseName ∧
       baseName ≠ [46] ∧ baseName ≠ [46, 46] ∧
       deletedSuffixG.isSuffixOf baseName = false ∧
       partSuffixG.isSuffixOf baseName = false ∧
       (∀ r ∈ (utf8Decode baseName).getD [], validFilenameRune isPrintF r = true) ∧
       isLocalGo baseName = true ∧
       fp = joinGo dir baseName)) ∧
    (joinDirGo isPrintF dir baseName = some fp →
      ∀ rooted : Bool,
        cleanStack rooted (splitSlash (dir ++ 47 :: baseName)) =
          baseName :: cleanStack rooted (splitSlash dir)) := by
  have hiff : joinDirGo isPrintF dir baseName = some fp ↔
      ((utf8Decode baseName).isSome = true ∧
       trimSpace baseName = baseName ∧
       baseName.length ≤ 255 ∧
       cleanGo baseName = baseName ∧
       baseName ≠ [46] ∧ baseName ≠ [46, 46] ∧
       deletedSuffixG.isSuffixOf baseName = false ∧
       partSuffixG.isSuffixOf baseName = false ∧
       (∀ r ∈ (utf8Decode baseName).getD [], validFilenameRune isPrintF r = true) ∧
       isLocalGo baseName = true ∧
       fp = joinGo dir baseName) := by
    cases h : utf8Decode baseName with
    | none =>
      simp only [joinDirGo, h, Option.isSome_none]
      constructor
      · intro hx
        exact absurd hx (by simp)
      · rintro ⟨hsome, _⟩
        exact absurd hsome (by simp)
    | some rs =>
      simp only [joinDirGo, h, Option.isSome_some, Option.getD_some, true_and]
      by_cases h1 : trimSpace baseName ≠ baseName
      · rw [if_pos h1]
        constructor
        · intro hx
          exact absurd hx (by simp)
        · rintro ⟨hc2, _⟩
          exact absurd hc2 h1
      · rw [if_neg h1]
        push_neg at h1
        by_cases h2 : 255 < baseName.length
        · rw [if_pos h2]
          constructor
          · intro hx
            exact absurd hx (by simp)
          · rintro ⟨_, hc3, _⟩
            omega
        · rw [if_neg h2]
          by_cases h3 : cleanGo baseName ≠ baseName ∨ cleanGo baseName = [46] ∨
              cleanGo baseName = [46, 46] ∨
              deletedSuffixG.isSuffixOf (cleanGo baseName) = true ∨
              partSuffixG.isSuffixOf (cleanGo baseName) = true
          · rw [if_pos h3]
            constructor
            · intro hx
              exact absurd hx (by simp)
            · rintro ⟨_, _, hc4, hc5, hc6, hc7, hc8, _⟩
              rcases h3 with h | h | h | h | h
              · exact (h hc4).elim
              · exact (hc5 (hc4.symm.trans h)).elim
              · rw [hc4] at h
                exact (hc6 h).elim
              · rw [hc4] at h
                rw [hc7] at h
                exact absurd h (by simp)
              · rw [hc4] at h
                rw [hc8] at h
                exact absurd h (by simp)
          · rw [if_neg h3]
            push_neg at h3
            obtain ⟨hc4, hc5, hc6, hc7, hc8⟩ := h3
            by_cases h4 : ¬(rs.all (validFilenameRune isPrintF) = true)
            · rw [if_pos h4]
              constructor
              · intro hx
                exact absurd hx (by simp)
              · rintro ⟨_, _, _, _, _, _, _, hc9, _⟩
                exact (h4 (List.all_eq_true.mpr hc9)).elim
            · rw [if_neg h4]
              push_neg at h4
              by_cases h5 : ¬(isLocalGo baseName = true)
              · rw [if_pos h5]
                constructor
                · intro hx
                  exact absurd hx (by simp)
                · rintro ⟨_, _, _, _, _, _, _, _, hc10, _⟩
                  exact (h5 hc10).elim
              · rw [if_neg h5]
                push_neg at h5
                constructor
                · intro hx
                  refine ⟨h1, by omega, hc4, ?_, ?_, ?_, ?_,
                    List.all_eq_true.mp h4, h5, ?_⟩
                  · intro he
                    exact hc5 (hc4.trans he)
                  · intro he
                    exact hc6 (hc4.trans he)
                  · rw [← hc4]
                    exact Bool.eq_false_iff.mpr hc7
                  · rw [← hc4]
                    exact Bool.eq_false_iff.mpr hc8
                  · exact (Option.some_inj.mp hx).symm
                · rintro ⟨_, _, _, _, _, _, _, _, _, hfp⟩
                  rw [hfp]
  refine ⟨hiff, ?_⟩
  intro hacc rooted
  obtain ⟨hs, _, _, h4, h5, h6, _, _, h9, _, _⟩ := hiff.mp hacc
  have hrs : utf8Decode baseName = some ((utf8Decode baseName).getD []) := by
    cases hd : utf8Decode baseName with
    | none => rw [hd] at hs; exact absurd hs (by simp)
    | some rs => simp [hd]
  have hns : 47 ∉ baseName := by
    refine utf8Decode_no_slash baseName _ hrs ?_
    intro h47
    have := h9 47 h47
    simp [validFilenameRune] at this
  have h0 : baseName ≠ [] := by
    intro he
    rw [he] at h4
    exact absurd h4 (by decide)
  exact join_under_dir dir baseName rooted hns h0 h5 h6

/-- C8 witness: with an ASCII-printable isPrint, "file.txt" is accepted
under "/dst", the returned path is "/dst/file.txt", and the cleaned joined
path is the cleaned directory with "file.txt" descended into. -/
theorem C8_joinDir_characterization_witness :
    joinDirGo (fun r => 32 ≤ r && r < 127) (gs "/dst") (gs "file.txt") =
      some (gs "/dst/file.txt") ∧
    cleanStack true (splitSlash (gs "/dst" ++ 47 :: gs "file.txt")) =
      gs "file.txt" :: cleanStack true (splitSlash (gs "/dst")) := by
  have h := C8_joinDir_characterization (fun r => 32 ≤ r && r < 127)
    (gs "/dst") (gs "file.txt") (gs "/dst/file.txt")
  have hacc : joinDirGo (fun r => 32 ≤ r && r < 127) (gs "/dst") (gs "file.txt") =
      some (gs "/dst/file.txt") := h.1.mpr (by decide)
  exact ⟨hacc, h.2 hacc true⟩

end TSpec
